import Mathlib

/-!
# Verification of the Spm_llama core

Shallow embedding of the orchestration core of the `Spm_llama` repository:

* `src/spm-core/src/models/llama3/cache.rs` — the attention cache
  (`Cache::mask`, `Cache::process_kv`, `Cache::clear`);
* `src/spm-core/src/models/llama3/llama.rs` — the per-token dispatch
  scheduler (`LLama::forward`) and the decode step (`LLama::next_token`);
* `src/spm-core/src/spm/master.rs` — the outer generation loop
  (`Master::generate`).

Tensors are modelled at the level the claims need: key/value tensors by
their shape (a list of dimension sizes, as returned by `Tensor::dims()`),
mask tensors by their flat `u8` data.  The numeric kernels (embedding,
normalisation, projection, softmax) are out of scope per the spec and are
abstracted as oracles where control flow depends on them.

`MAX_SEQ_LEN` is declared in the crate's `llama3` module (not shipped
here); it is carried as an explicit parameter `W` throughout.
-/

namespace Spm

/-! ## Tensor shapes

A tensor shape, as `Tensor::dims()` returns it: one size per axis. -/

abbrev Dims := List Nat

/-- `Tensor::cat(&[a, b], d)` at the shape level: both tensors must have
the same rank, `d` must be a valid axis, and all axes except `d` must
agree; the result sums axis `d`.  `none` models the candle error. -/
def catAt (d : Nat) (a b : Dims) : Option Dims :=
  if a.length = b.length ∧ d < a.length ∧ a.eraseIdx d = b.eraseIdx d then
    some (a.set d (a.getD d 0 + b.getD d 0))
  else none

/-- `t.narrow(D::Minus1, start, len)` at the shape level: the last axis is
restricted to `len` entries starting at `start`; fails when the range does
not fit (or the tensor has rank 0). -/
def narrowLast (start len : Nat) (a : Dims) : Option Dims :=
  match a.getLast? with
  | none => none
  | some n => if start + len ≤ n then some (a.dropLast ++ [len]) else none

/-! ## The attention cache (`cache.rs`)

`Cache` holds the memoized causal masks (`masks : HashMap<usize, Tensor>`,
modelled as an association list from sequence length to flat mask data),
the kv-cache switch, and one optional `(key, value)` slot per layer
(`kvs : Vec<Option<(Tensor, Tensor)>>`, modelled at the shape level).
The rotary `cos`/`sin` tables are pure functions of the configuration and
are not consulted by any claim, so they are not carried in the state. -/

structure Cache where
  masks : List (Nat × List Nat)
  use_kv_cache : Bool
  kvs : List (Option (Dims × Dims))
  deriving Repr, DecidableEq

/-- The flat mask data built by `Cache::mask` on a miss:
`(0..seq_len).flat_map(|i| (0..seq_len).map(move |j| u8::from(j > i)))`. -/
def maskData (seq_len : Nat) : List Nat :=
  (List.range seq_len).flatMap fun i =>
    (List.range seq_len).map fun j => if j > i then 1 else 0

/-- Association-list lookup standing in for `HashMap::get`. -/
def lookupMask (masks : List (Nat × List Nat)) (seq_len : Nat) :
    Option (List Nat) :=
  match masks with
  | [] => none
  | (n, m) :: rest => if n = seq_len then some m else lookupMask rest seq_len

/-- `Cache::mask(seq_len)`: return the memoized mask for `seq_len` if
present, otherwise build it, insert it, and return it.  The result pairs
the returned mask data with the updated cache. -/
def Cache.mask (c : Cache) (seq_len : Nat) : List Nat × Cache :=
  match lookupMask c.masks seq_len with
  | some m => (m, c)
  | none =>
      let m := maskData seq_len
      (m, { c with masks := (seq_len, m) :: c.masks })

/-- `Cache::process_kv(block_idx, k, v)` at the shape level, with the
window bound `W` standing for `MAX_SEQ_LEN`.

With kv-caching enabled and a prior entry present it concatenates along
axis 2, then — exactly as the source does — compares `k.dims()[1]`
against `W` (resp. `v.dims()[1]` against `2*W`) and on overflow narrows
the *last* axis to `W` entries; the (possibly narrowed) pair is stored
and returned.  `none` models a candle error or an out-of-range
`self.kvs[block_idx]` index. -/
def Cache.process_kv (W : Nat) (c : Cache) (block_idx : Nat) (k v : Dims) :
    Option ((Dims × Dims) × Cache) :=
  if c.use_kv_cache then
    match c.kvs.get? block_idx with
    | none => none
    | some slot =>
      match slot with
      | none =>
          some ((k, v),
            { c with kvs := c.kvs.set block_idx (some (k, v)) })
      | some (cache_k, cache_v) => do
          let k ← catAt 2 cache_k k
          let v ← catAt 2 cache_v v
          let k_seq_len ← k.get? 1
          let k ← if k_seq_len > W then
              narrowLast (k_seq_len - W) W k
            else some k
          let v_seq_len ← v.get? 1
          let v ← if v_seq_len > 2 * W then
              narrowLast (v_seq_len - W) W v
            else some v
          some ((k, v),
            { c with kvs := c.kvs.set block_idx (some (k, v)) })
  else
    some ((k, v), c)

/-- `Cache::clear`: drop all memoized masks and all per-layer kv slots. -/
def Cache.clear (c : Cache) : Cache :=
  { c with masks := [], kvs := List.replicate c.kvs.length none }

/-! ## The dispatch scheduler (`LLama::forward`, `llama.rs` lines 85-121)

Each transformer block is one `Forwarder`, characterised for dispatch by
its identity string (`ident()`, `"local"` for an in-process block, the
serving node's name otherwise) and its layer name.  The scheduler walks
the ordered block list and issues local single-layer calls and remote
batch calls; we record the issued call sequence. -/

structure Block where
  ident : String
  layer_name : String
  deriving Repr, DecidableEq, Inhabited

/-- One issued forward call: a local single-layer call
(`blocks[block_idx].forward_mut(x, idx, block_idx, cache)`), or a remote
batch call (`blocks[first].forward_batch(x, batch, cache)`) carrying the
run's identity and the collected batch of
`(layer_name, position, layer_index)` entries. -/
inductive Call where
  | loc (block_idx : Nat)
  | batch (ident : String) (entries : List (String × Nat × Nat))
  deriving Repr, DecidableEq

/-- The inner run-collection loop of `LLama::forward`:
`while block_idx < num_blocks && self.blocks[block_idx].ident() == curr_block_id`
pushes `(layer_name, idx, block_idx)` and advances.  Returns the collected
entries together with the index the loop stops at. -/
def collectBatch (blocks : List Block) (curr : String) (pos i : Nat) :
    List (String × Nat × Nat) × Nat :=
  if h : i < blocks.length then
    if (blocks.get ⟨i, h⟩).ident = curr then
      let r := collectBatch blocks curr pos (i + 1)
      (((blocks.get ⟨i, h⟩).layer_name, pos, i) :: r.1, r.2)
    else ([], i)
  else ([], i)
termination_by blocks.length - i

theorem collectBatch_snd_ge (blocks : List Block) (curr : String)
    (pos i : Nat) : i ≤ (collectBatch blocks curr pos i).2 := by
  refine collectBatch.induct blocks curr pos
    (fun i => i ≤ (collectBatch blocks curr pos i).2) ?_ ?_ ?_ i
  · intro i h hid ih
    rw [collectBatch]
    simp only [dif_pos h, if_pos hid]
    omega
  · intro i h hid
    rw [collectBatch]
    simp only [dif_pos h, if_neg hid]
    omega
  · intro i h
    rw [collectBatch]
    simp only [dif_neg h]
    omega

/-- The identity of the block at index `i` (`blocks[i].ident()`). -/
def identAt (blocks : List Block) (i : Nat) : String :=
  (blocks.getD i default).ident

/-- The layer name of the block at index `i` (`blocks[i].layer_name()`). -/
def layerNameAt (blocks : List Block) (i : Nat) : String :=
  (blocks.getD i default).layer_name

theorem identAt_eq (blocks : List Block) (i : Nat) (h : i < blocks.length) :
    identAt blocks i = (blocks.get ⟨i, h⟩).ident := by
  simp [identAt, List.getD, List.getElem?_eq_getElem h]

theorem layerNameAt_eq (blocks : List Block) (i : Nat)
    (h : i < blocks.length) :
    layerNameAt blocks i = (blocks.get ⟨i, h⟩).layer_name := by
  simp [layerNameAt, List.getD, List.getElem?_eq_getElem h]

theorem collectBatch_snd_gt (blocks : List Block) (curr : String)
    (pos i : Nat) (h : i < blocks.length)
    (hc : (blocks.get ⟨i, h⟩).ident = curr) :
    i + 1 ≤ (collectBatch blocks curr pos i).2 := by
  rw [collectBatch]
  simp only [dif_pos h, if_pos hc]
  exact collectBatch_snd_ge blocks curr pos (i + 1)

theorem collectBatch_snd_le (blocks : List Block) (curr : String)
    (pos : Nat) :
    ∀ i, i ≤ blocks.length → (collectBatch blocks curr pos i).2 ≤ blocks.length := by
  intro i
  refine collectBatch.induct blocks curr pos
    (fun i => i ≤ blocks.length → (collectBatch blocks curr pos i).2 ≤ blocks.length)
    ?_ ?_ ?_ i
  · intro i h hid ih _
    rw [collectBatch]
    simp only [dif_pos h, if_pos hid]
    exact ih (by omega)
  · intro i h hid _
    rw [collectBatch]
    simp only [dif_pos h, if_neg hid]
    omega
  · intro i h hle
    rw [collectBatch]
    simp only [dif_neg h]
    omega

theorem collectBatch_entries (blocks : List Block) (curr : String)
    (pos i : Nat) :
    (collectBatch blocks curr pos i).1 =
      (List.range' i ((collectBatch blocks curr pos i).2 - i)).map
        (fun t => (layerNameAt blocks t, pos, t)) := by
  refine collectBatch.induct blocks curr pos
    (fun i => (collectBatch blocks curr pos i).1 =
      (List.range' i ((collectBatch blocks curr pos i).2 - i)).map
        (fun t => (layerNameAt blocks t, pos, t))) ?_ ?_ ?_ i
  · intro i h hid ih
    have hge := collectBatch_snd_ge blocks curr pos (i + 1)
    rw [collectBatch]
    simp only [dif_pos h, if_pos hid]
    have hsub : (collectBatch blocks curr pos (i + 1)).2 - i =
        ((collectBatch blocks curr pos (i + 1)).2 - (i + 1)) + 1 := by omega
    rw [hsub, List.range'_succ, List.map_cons, ← ih, layerNameAt_eq blocks i h]
  · intro i h hid
    rw [collectBatch]
    simp only [dif_pos h, if_neg hid, Nat.sub_self, List.range']
    rfl
  · intro i h
    rw [collectBatch]
    simp only [dif_neg h, Nat.sub_self, List.range']
    rfl

theorem collectBatch_ident (blocks : List Block) (curr : String)
    (pos i : Nat) :
    ∀ t, i ≤ t → t < (collectBatch blocks curr pos i).2 →
      identAt blocks t = curr := by
  refine collectBatch.induct blocks curr pos
    (fun i => ∀ t, i ≤ t → t < (collectBatch blocks curr pos i).2 →
      identAt blocks t = curr) ?_ ?_ ?_ i
  · intro i h hid ih t hit htlt
    rw [collectBatch] at htlt
    simp only [dif_pos h, if_pos hid] at htlt
    rcases Nat.eq_or_lt_of_le hit with heq | hlt
    · subst heq
      rw [identAt_eq blocks i h]
      exact hid
    · exact ih t hlt htlt
  · intro i h hid t hit htlt
    rw [collectBatch] at htlt
    simp only [dif_pos h, if_neg hid] at htlt
    omega
  · intro i h t hit htlt
    rw [collectBatch] at htlt
    simp only [dif_neg h] at htlt
    omega

theorem collectBatch_stop (blocks : List Block) (curr : String)
    (pos i : Nat) :
    blocks.length ≤ (collectBatch blocks curr pos i).2 ∨
      identAt blocks (collectBatch blocks curr pos i).2 ≠ curr := by
  refine collectBatch.induct blocks curr pos
    (fun i => blocks.length ≤ (collectBatch blocks curr pos i).2 ∨
      identAt blocks (collectBatch blocks curr pos i).2 ≠ curr) ?_ ?_ ?_ i
  · intro i h hid ih
    rw [collectBatch]
    simp only [dif_pos h, if_pos hid]
    exact ih
  · intro i h hid
    rw [collectBatch]
    simp only [dif_pos h, if_neg hid]
    right
    rw [identAt_eq blocks i h]
    exact hid
  · intro i h
    rw [collectBatch]
    simp only [dif_neg h]
    left
    omega

/-- The dispatch loop of `LLama::forward`: starting from `block_idx = i`,
`while block_idx < (num_blocks - 1)` either issues a local single-layer
call and advances by one, or collects the maximal contiguous run of
blocks with the same (non-local) identity and issues one batch call to
it, advancing past the run.  Returns the sequence of issued calls.
(`num_blocks - 1` is truncated subtraction, as in Lean; the Rust `usize`
subtraction underflows — i.e. panics — on an empty block list, so the
theorems below assume `blocks ≠ []`.) -/
def forwardCalls (blocks : List Block) (pos i : Nat) : List Call :=
  if h : i < blocks.length - 1 then
    if (blocks.get ⟨i, by omega⟩).ident = "local" then
      Call.loc i :: forwardCalls blocks pos (i + 1)
    else
      Call.batch (blocks.get ⟨i, by omega⟩).ident
          (collectBatch blocks (blocks.get ⟨i, by omega⟩).ident pos i).1 ::
        forwardCalls blocks pos
          (collectBatch blocks (blocks.get ⟨i, by omega⟩).ident pos i).2
  else []
termination_by blocks.length - i
decreasing_by
  · omega
  · have := collectBatch_snd_gt blocks (blocks.get ⟨i, by omega⟩).ident pos i
      (by omega) rfl
    omega

/-- The layer indices a call covers: the single index of a local call, or
the `layer_index` components of a batch's entries. -/
def Call.idxs : Call → List Nat
  | .loc i => [i]
  | .batch _ entries => entries.map (fun e => e.2.2)

/-- All layer indices covered by a call sequence, in issue order. -/
def coveredIdxs (cs : List Call) : List Nat :=
  cs.flatMap Call.idxs

/-- The exclusive upper end of the index range the dispatch traversal
covers: all of `blocks.length` when the final block is swept into its
predecessor's batch run (same non-local identity), `blocks.length - 1`
otherwise. -/
def schedEnd (blocks : List Block) : Nat :=
  if 2 ≤ blocks.length ∧ identAt blocks (blocks.length - 2) ≠ "local" ∧
      identAt blocks (blocks.length - 1) = identAt blocks (blocks.length - 2)
  then blocks.length else blocks.length - 1

theorem schedEnd_ge (blocks : List Block) :
    blocks.length - 1 ≤ schedEnd blocks := by
  unfold schedEnd
  split <;> omega

theorem schedEnd_le (blocks : List Block) :
    schedEnd blocks ≤ blocks.length := by
  unfold schedEnd
  split <;> omega

theorem coveredIdxs_forwardCalls (blocks : List Block) (pos : Nat) :
    ∀ i, i < blocks.length - 1 →
      coveredIdxs (forwardCalls blocks pos i) =
        List.range' i (schedEnd blocks - i) := by
  intro i
  refine forwardCalls.induct blocks pos
    (fun i => i < blocks.length - 1 →
      coveredIdxs (forwardCalls blocks pos i) =
        List.range' i (schedEnd blocks - i)) ?_ ?_ ?_ i
  · -- local branch
    intro i h hl ih _
    rw [forwardCalls]
    simp only [dif_pos h, if_pos hl]
    have hE1 := schedEnd_ge blocks
    have hE2 := schedEnd_le blocks
    rcases Nat.lt_or_ge (i + 1) (blocks.length - 1) with hlt | hge
    · rw [show coveredIdxs (Call.loc i :: forwardCalls blocks pos (i + 1)) =
            i :: coveredIdxs (forwardCalls blocks pos (i + 1)) from rfl,
          ih hlt]
      rw [show schedEnd blocks - i = (schedEnd blocks - (i + 1)) + 1 by omega,
          List.range'_succ]
    · -- i = blocks.length - 2 and the next position ends the loop
      have hi : i = blocks.length - 2 := by omega
      have hnext : forwardCalls blocks pos (i + 1) = [] := by
        rw [forwardCalls]
        simp only [dif_neg (by omega : ¬ i + 1 < blocks.length - 1)]
      have hEeq : schedEnd blocks = blocks.length - 1 := by
        unfold schedEnd
        rw [if_neg]
        intro hcond
        apply hcond.2.1
        rw [← hi, identAt_eq blocks i (by omega)]
        exact hl
      rw [hnext]
      rw [show coveredIdxs [Call.loc i] = [i] from rfl]
      rw [hEeq, show blocks.length - 1 - i = 1 by omega]
      rfl
  · -- batch branch
    intro i h hl ih _
    rw [forwardCalls]
    simp only [dif_pos h, if_neg hl]
    have hE1 := schedEnd_ge blocks
    have hE2 := schedEnd_le blocks
    set s := (blocks.get ⟨i, by omega⟩).ident with hs
    set e := (collectBatch blocks s pos i).2 with he
    have hei : i + 1 ≤ e := collectBatch_snd_gt blocks s pos i (by omega) rfl
    have hele : e ≤ blocks.length :=
      collectBatch_snd_le blocks s pos i (by omega)
    have hids : ∀ t, i ≤ t → t < e → identAt blocks t = s :=
      collectBatch_ident blocks s pos i
    have hcover : coveredIdxs (Call.batch s (collectBatch blocks s pos i).1 ::
        forwardCalls blocks pos e) =
        List.range' i (e - i) ++ coveredIdxs (forwardCalls blocks pos e) := by
      rw [show coveredIdxs (Call.batch s (collectBatch blocks s pos i).1 ::
            forwardCalls blocks pos e) =
          (collectBatch blocks s pos i).1.map (fun x => x.2.2) ++
            coveredIdxs (forwardCalls blocks pos e) from rfl]
      rw [collectBatch_entries blocks s pos i, List.map_map, ← he]
      rw [show ((fun x : String × Nat × Nat => x.2.2) ∘
            fun t => (layerNameAt blocks t, pos, t)) = id from rfl, List.map_id]
    rw [hcover]
    rcases Nat.lt_or_ge e (blocks.length - 1) with hlt | hge
    · rw [ih hlt]
      rw [show List.range' e (schedEnd blocks - e) =
            List.range' (i + 1 * (e - i)) (schedEnd blocks - e) by
          congr 1
          omega]
      rw [List.range'_append i (e - i) (schedEnd blocks - e) 1]
      congr 1
      omega
    · have hnext : forwardCalls blocks pos e = [] := by
        rw [forwardCalls]
        simp only [dif_neg (by omega : ¬ e < blocks.length - 1)]
      rw [hnext, show coveredIdxs ([] : List Call) = [] from rfl,
        List.append_nil]
      have hsnl : s ≠ "local" := hl
      rcases Nat.eq_or_lt_of_le hge with heq | hlt2
      · -- e = blocks.length - 1 : run stopped just before the final block
        have hstop := collectBatch_stop blocks s pos i
        rw [← he] at hstop
        have hlast : identAt blocks (blocks.length - 1) ≠ s := by
          rcases hstop with h1 | h2
          · omega
          · rw [heq]
            exact h2
        have hpen : identAt blocks (blocks.length - 2) = s := by
          apply hids
          · omega
          · omega
        have hEeq : schedEnd blocks = blocks.length - 1 := by
          unfold schedEnd
          rw [if_neg]
          intro hcond
          apply hlast
          rw [hcond.2.2, hpen]
        rw [hEeq, ← heq]
      · -- e = blocks.length : run extended through the final block
        have heq : e = blocks.length := by omega
        have hpen : identAt blocks (blocks.length - 2) = s := by
          apply hids <;> omega
        have hlast : identAt blocks (blocks.length - 1) = s := by
          apply hids <;> omega
        have hEeq : schedEnd blocks = blocks.length := by
          unfold schedEnd
          rw [if_pos]
          refine ⟨by omega, ?_, ?_⟩
          · rw [hpen]
            exact hsnl
          · rw [hpen, hlast]
        rw [hEeq, ← heq]
  · intro i h hi
    omega

theorem mem_loc_forwardCalls (blocks : List Block) (pos : Nat) :
    ∀ i j, Call.loc j ∈ forwardCalls blocks pos i →
      i ≤ j ∧ j < blocks.length - 1 ∧ identAt blocks j = "local" := by
  intro i
  refine forwardCalls.induct blocks pos
    (fun i => ∀ j, Call.loc j ∈ forwardCalls blocks pos i →
      i ≤ j ∧ j < blocks.length - 1 ∧ identAt blocks j = "local") ?_ ?_ ?_ i
  · intro i h hl ih j hmem
    rw [forwardCalls] at hmem
    simp only [dif_pos h, if_pos hl, List.mem_cons] at hmem
    rcases hmem with heq | hmem
    · cases heq
      refine ⟨le_refl _, h, ?_⟩
      rw [identAt_eq blocks i (by omega)]
      exact hl
    · have := ih j hmem
      exact ⟨by omega, this.2.1, this.2.2⟩
  · intro i h hl ih j hmem
    rw [forwardCalls] at hmem
    simp only [dif_pos h, if_neg hl, List.mem_cons] at hmem
    rcases hmem with heq | hmem
    · exact absurd heq (by simp)
    · have hei := collectBatch_snd_gt blocks (blocks.get ⟨i, by omega⟩).ident
        pos i (by omega) rfl
      have := ih j hmem
      exact ⟨by omega, this.2.1, this.2.2⟩
  · intro i h j hmem
    rw [forwardCalls] at hmem
    simp only [dif_neg h] at hmem
    exact absurd hmem (List.not_mem_nil _)

theorem loc_mem_forwardCalls (blocks : List Block) (pos : Nat) :
    ∀ i j, i ≤ j → j < blocks.length - 1 → identAt blocks j = "local" →
      Call.loc j ∈ forwardCalls blocks pos i := by
  intro i
  refine forwardCalls.induct blocks pos
    (fun i => ∀ j, i ≤ j → j < blocks.length - 1 →
      identAt blocks j = "local" →
      Call.loc j ∈ forwardCalls blocks pos i) ?_ ?_ ?_ i
  · intro i h hl ih j hij hj hjl
    rw [forwardCalls]
    simp only [dif_pos h, if_pos hl, List.mem_cons]
    rcases Nat.eq_or_lt_of_le hij with heq | hlt
    · left
      rw [heq]
    · right
      exact ih j hlt hj hjl
  · intro i h hl ih j hij hj hjl
    rw [forwardCalls]
    simp only [dif_pos h, if_neg hl, List.mem_cons]
    right
    set s := (blocks.get ⟨i, by omega⟩).ident with hs
    set e := (collectBatch blocks s pos i).2 with he
    have hii : identAt blocks i = s := identAt_eq blocks i (by omega)
    have hij' : i ≠ j := by
      intro hthis
      apply hl
      rw [hthis] at hii
      rw [← hii, hjl]
    have hej : e ≤ j := by
      by_contra hc
      push_neg at hc
      have := collectBatch_ident blocks s pos i j hij hc
      apply hl
      rw [← this, hjl]
    exact ih j hej hj hjl
  · intro i h j hij hj hjl
    omega

theorem mem_batch_forwardCalls (blocks : List Block) (pos : Nat) :
    ∀ i s ents, Call.batch s ents ∈ forwardCalls blocks pos i →
      ∃ j, i ≤ j ∧ j < blocks.length - 1 ∧ identAt blocks j = s ∧
        s ≠ "local" ∧ ents = (collectBatch blocks s pos j).1 ∧
        (j = i ∨ identAt blocks (j - 1) ≠ s) := by
  intro i
  refine forwardCalls.induct blocks pos
    (fun i => ∀ s ents, Call.batch s ents ∈ forwardCalls blocks pos i →
      ∃ j, i ≤ j ∧ j < blocks.length - 1 ∧ identAt blocks j = s ∧
        s ≠ "local" ∧ ents = (collectBatch blocks s pos j).1 ∧
        (j = i ∨ identAt blocks (j - 1) ≠ s)) ?_ ?_ ?_ i
  · -- local head: batch calls come from the tail, and the predecessor of a
    -- tail-initial batch is this local block
    intro i h hl ih s ents hmem
    rw [forwardCalls] at hmem
    simp only [dif_pos h, if_pos hl, List.mem_cons] at hmem
    rcases hmem with heq | hmem
    · exact absurd heq (by simp)
    · obtain ⟨j, hij, hj, hjs, hsnl, hents, hmax⟩ := ih s ents hmem
      refine ⟨j, by omega, hj, hjs, hsnl, hents, Or.inr ?_⟩
      rcases hmax with heq | hne
      · rw [heq]
        have : identAt blocks i = "local" := by
          rw [identAt_eq blocks i (by omega)]
          exact hl
        rw [show i + 1 - 1 = i by omega, this]
        intro hcon
        exact hsnl hcon.symm
      · exact hne
  · -- batch head: either this very batch, or one strictly after the run
    intro i h hl ih s ents hmem
    rw [forwardCalls] at hmem
    set s0 := (blocks.get ⟨i, by omega⟩).ident with hs0
    simp only [dif_pos h, if_neg hl, List.mem_cons] at hmem
    set e := (collectBatch blocks s0 pos i).2 with he
    have hii : identAt blocks i = s0 := identAt_eq blocks i (by omega)
    have hei : i + 1 ≤ e := collectBatch_snd_gt blocks s0 pos i (by omega) rfl
    rcases hmem with heq | hmem
    · cases heq
      exact ⟨i, le_refl _, h, hii, hl, rfl, Or.inl rfl⟩
    · obtain ⟨j, hej, hj, hjs, hsnl, hents, hmax⟩ := ih s ents hmem
      refine ⟨j, by omega, hj, hjs, hsnl, hents, Or.inr ?_⟩
      rcases hmax with heq | hne
      · -- j = e : the previous run stopped right here, so the identities
        -- on either side of the boundary differ
        subst heq
        have hstop := collectBatch_stop blocks s0 pos i
        rw [← he] at hstop
        have hprev : identAt blocks (e - 1) = s0 := by
          apply collectBatch_ident blocks s0 pos i <;> omega
        have hjne : identAt blocks e ≠ s0 := by
          rcases hstop with h1 | h2
          · omega
          · exact h2
        rw [hprev, ← hjs]
        intro hcon
        exact hjne hcon.symm
      · exact hne
  · intro i h s ents hmem
    rw [forwardCalls] at hmem
    simp only [dif_neg h] at hmem
    exact absurd hmem (List.not_mem_nil _)

theorem batch_mem_forwardCalls (blocks : List Block) (pos : Nat) :
    ∀ i j, i ≤ j → j < blocks.length - 1 → identAt blocks j ≠ "local" →
      (j = i ∨ identAt blocks (j - 1) ≠ identAt blocks j) →
      Call.batch (identAt blocks j)
          (collectBatch blocks (identAt blocks j) pos j).1 ∈
        forwardCalls blocks pos i := by
  intro i
  refine forwardCalls.induct blocks pos
    (fun i => ∀ j, i ≤ j → j < blocks.length - 1 →
      identAt blocks j ≠ "local" →
      (j = i ∨ identAt blocks (j - 1) ≠ identAt blocks j) →
      Call.batch (identAt blocks j)
          (collectBatch blocks (identAt blocks j) pos j).1 ∈
        forwardCalls blocks pos i) ?_ ?_ ?_ i
  · intro i h hl ih j hij hj hjnl hmax
    rw [forwardCalls]
    simp only [dif_pos h, if_pos hl, List.mem_cons]
    right
    have hii : identAt blocks i = "local" := by
      rw [identAt_eq blocks i (by omega)]
      exact hl
    have hij' : i ≠ j := by
      intro hthis
      apply hjnl
      rw [← hthis, hii]
    refine ih j (by omega) hj hjnl ?_
    rcases hmax with heq | hne
    · exact absurd heq.symm hij'
    · exact Or.inr hne
  · intro i h hl ih j hij hj hjnl hmax
    rw [forwardCalls]
    set s0 := (blocks.get ⟨i, by omega⟩).ident with hs0
    simp only [dif_pos h, if_neg hl, List.mem_cons]
    have hii : identAt blocks i = s0 := identAt_eq blocks i (by omega)
    set e := (collectBatch blocks s0 pos i).2 with he
    have hei : i + 1 ≤ e := collectBatch_snd_gt blocks s0 pos i (by omega) rfl
    rcases Nat.eq_or_lt_of_le hij with heq | hlt
    · left
      rw [← heq, hii]
    · right
      have hne : identAt blocks (j - 1) ≠ identAt blocks j := by
        rcases hmax with heq2 | hne2
        · omega
        · exact hne2
      have hej : e ≤ j := by
        by_contra hc
        push_neg at hc
        have h1 : identAt blocks j = s0 :=
          collectBatch_ident blocks s0 pos i j (by omega) hc
        have h2 : identAt blocks (j - 1) = s0 := by
          apply collectBatch_ident blocks s0 pos i <;> omega
        apply hne
        rw [h1, h2]
      exact ih j hej hj hjnl (Or.inr hne)
  · intro i h j hij hj hjnl hmax
    omega

theorem count_mul_le_sum_map {α : Type} [DecidableEq α] (g : α → Nat)
    (c : α) : ∀ cs : List α, cs.count c * g c ≤ (cs.map g).sum := by
  intro cs
  induction cs with
  | nil => simp
  | cons a l ih =>
      rw [List.count_cons, List.map_cons, List.sum_cons]
      rcases eq_or_ne a c with hac | hac
      · subst hac
        rw [if_pos (by simp)]
        calc (List.count a l + 1) * g a = List.count a l * g a + g a := by
              ring
        _ ≤ (l.map g).sum + g a := by omega
        _ ≤ g a + (l.map g).sum := by omega
      · rw [if_neg (by simp [hac])]
        have hle : (l.map g).sum ≤ g a + (l.map g).sum := by omega
        calc (List.count c l + 0) * g c = List.count c l * g c := by ring
        _ ≤ (l.map g).sum := ih
        _ ≤ g a + (l.map g).sum := hle

theorem idxs_batch_collect (blocks : List Block) (s : String)
    (pos j : Nat) :
    (Call.batch s (collectBatch blocks s pos j).1).idxs =
      List.range' j ((collectBatch blocks s pos j).2 - j) := by
  rw [show (Call.batch s (collectBatch blocks s pos j).1).idxs =
      (collectBatch blocks s pos j).1.map (fun e => e.2.2) from rfl]
  rw [collectBatch_entries blocks s pos j, List.map_map]
  rw [show ((fun x : String × Nat × Nat => x.2.2) ∘
      fun t => (layerNameAt blocks t, pos, t)) = id from rfl, List.map_id]

theorem forwardCalls_nil (blocks : List Block) (pos : Nat)
    (h : blocks.length ≤ 1) : forwardCalls blocks pos 0 = [] := by
  rw [forwardCalls]
  simp only [dif_neg (by omega : ¬ (0 : Nat) < blocks.length - 1)]

theorem coveredIdxs_forwardCalls_zero (blocks : List Block) (pos : Nat)
    (hne : blocks ≠ []) :
    coveredIdxs (forwardCalls blocks pos 0) = List.range (schedEnd blocks) := by
  have hlen : 1 ≤ blocks.length := by
    cases blocks with
    | nil => exact absurd rfl hne
    | cons a l => simp
  rcases Nat.lt_or_ge 0 (blocks.length - 1) with hpos | hz
  · rw [coveredIdxs_forwardCalls blocks pos 0 hpos, Nat.sub_zero,
      List.range_eq_range']
  · have hE : schedEnd blocks = 0 := by
      unfold schedEnd
      rw [if_neg]
      · omega
      · intro hcond
        omega
    rw [forwardCalls_nil blocks pos (by omega), hE]
    rfl

/-- C1 (amended): for a nonempty Forwarder list, the dispatch scheduler's
issued calls cover, exactly once and in ascending order, exactly the layer
indices `0, …, schedEnd-1` — every index except possibly the final one,
which is covered exactly when it extends its predecessor's non-local run;
local calls are issued exactly at the local-identity positions before the
final index; every issued batch call is a contiguous run of a single
non-local identity, maximal on the left and maximal on the right up to
the list end; and every maximal non-local run starting before the final
index is issued as exactly one batch call. -/
theorem c1_dispatch_amended (blocks : List Block) (pos : Nat)
    (hne : blocks ≠ []) :
    coveredIdxs (forwardCalls blocks pos 0) = List.range (schedEnd blocks)
  ∧ (∀ i, Call.loc i ∈ forwardCalls blocks pos 0 ↔
      (i < blocks.length - 1 ∧ identAt blocks i = "local"))
  ∧ (∀ s ents, Call.batch s ents ∈ forwardCalls blocks pos 0 →
      s ≠ "local" ∧
      ∃ j, j < blocks.length - 1 ∧ j < (collectBatch blocks s pos j).2 ∧
        (collectBatch blocks s pos j).2 ≤ blocks.length ∧
        ents = (List.range' j ((collectBatch blocks s pos j).2 - j)).map
          (fun t => (layerNameAt blocks t, pos, t)) ∧
        (∀ t, j ≤ t → t < (collectBatch blocks s pos j).2 →
          identAt blocks t = s) ∧
        (j = 0 ∨ identAt blocks (j - 1) ≠ s) ∧
        ((collectBatch blocks s pos j).2 = blocks.length ∨
          identAt blocks (collectBatch blocks s pos j).2 ≠ s))
  ∧ (∀ j, j < blocks.length - 1 → identAt blocks j ≠ "local" →
      (j = 0 ∨ identAt blocks (j - 1) ≠ identAt blocks j) →
      (forwardCalls blocks pos 0).count
        (Call.batch (identAt blocks j)
          (collectBatch blocks (identAt blocks j) pos j).1) = 1) := by
  have hlen : 1 ≤ blocks.length := by
    cases blocks with
    | nil => exact absurd rfl hne
    | cons a l => simp
  have hcov := coveredIdxs_forwardCalls_zero blocks pos hne
  refine ⟨hcov, ?_, ?_, ?_⟩
  · intro i
    constructor
    · intro hmem
      have := mem_loc_forwardCalls blocks pos 0 i hmem
      exact ⟨this.2.1, this.2.2⟩
    · intro hcond
      exact loc_mem_forwardCalls blocks pos 0 i (Nat.zero_le i)
        hcond.1 hcond.2
  · intro s ents hmem
    obtain ⟨j, _, hj, hjs, hsnl, hents, hmax⟩ :=
      mem_batch_forwardCalls blocks pos 0 s ents hmem
    have hjlt : j < blocks.length := by omega
    have hget : (blocks.get ⟨j, hjlt⟩).ident = s := by
      rw [← identAt_eq blocks j hjlt]
      exact hjs
    have hje : j + 1 ≤ (collectBatch blocks s pos j).2 :=
      collectBatch_snd_gt blocks s pos j hjlt hget
    have hel : (collectBatch blocks s pos j).2 ≤ blocks.length :=
      collectBatch_snd_le blocks s pos j (by omega)
    have hstop := collectBatch_stop blocks s pos j
    refine ⟨hsnl, j, hj, by omega, hel, ?_, collectBatch_ident blocks s pos j,
      ?_, ?_⟩
    · rw [hents, collectBatch_entries blocks s pos j]
    · rcases hmax with h0 | hprev
      · exact Or.inl h0
      · exact Or.inr hprev
    · rcases hstop with h1 | h2
      · left
        omega
      · exact Or.inr h2
  · intro j hj hjnl hmax
    set c := Call.batch (identAt blocks j)
      (collectBatch blocks (identAt blocks j) pos j).1 with hc
    have hmem : c ∈ forwardCalls blocks pos 0 := by
      apply batch_mem_forwardCalls blocks pos 0 j (Nat.zero_le j) hj hjnl
      rcases hmax with h0 | hprev
      · subst h0
        exact Or.inl rfl
      · exact Or.inr hprev
    have hjlt : j < blocks.length := by omega
    have hget : (blocks.get ⟨j, hjlt⟩).ident = identAt blocks j :=
      (identAt_eq blocks j hjlt).symm
    have hje := collectBatch_snd_gt blocks (identAt blocks j) pos j hjlt hget
    have hjin : j ∈ c.idxs := by
      rw [hc, idxs_batch_collect]
      rw [List.mem_range'_1]
      omega
    have hcount1 : c.idxs.count j = 1 := by
      apply List.count_eq_one_of_mem _ hjin
      rw [hc, idxs_batch_collect]
      exact List.nodup_range' _ _
    have hsum : (forwardCalls blocks pos 0).count c * c.idxs.count j ≤
        ((forwardCalls blocks pos 0).map
          (fun x => List.count j (Call.idxs x))).sum :=
      count_mul_le_sum_map (fun x => List.count j (Call.idxs x)) c _
    have hflat : List.count j (coveredIdxs (forwardCalls blocks pos 0)) =
        ((forwardCalls blocks pos 0).map
          (fun x => List.count j (Call.idxs x))).sum := by
      rw [coveredIdxs, List.count_flatMap]
      rfl
    have hcle : List.count j (coveredIdxs (forwardCalls blocks pos 0)) ≤ 1 := by
      rw [hcov]
      exact List.nodup_iff_count_le_one.mp (List.nodup_range _) j
    have hpos : 0 < (forwardCalls blocks pos 0).count c :=
      List.count_pos_iff.mpr hmem
    rw [hcount1] at hsum
    omega

/-- C1 (counterexample): for the Forwarder list `[local, B]` the scheduler
issues only `local(0)`: layer index 1 is never covered, and the maximal
run of the non-local identity `"B"` (the final block alone) is never
issued as a batch call — refuting the claimed full coverage and
one-batch-per-maximal-run properties. -/
theorem c1_counterexample :
    forwardCalls
        [⟨"local", "model.layers.0"⟩, ⟨"B", "model.layers.1"⟩] 0 0 =
      [Call.loc 0]
  ∧ (1 : Nat) ∉ coveredIdxs (forwardCalls
      [⟨"local", "model.layers.0"⟩, ⟨"B", "model.layers.1"⟩] 0 0)
  ∧ ∀ ents, Call.batch "B" ents ∉ forwardCalls
      [⟨"local", "model.layers.0"⟩, ⟨"B", "model.layers.1"⟩] 0 0 := by
  have h : forwardCalls
      [⟨"local", "model.layers.0"⟩, ⟨"B", "model.layers.1"⟩] 0 0 =
      [Call.loc 0] := by
    simp [forwardCalls]
  refine ⟨h, ?_, ?_⟩
  · rw [h]
    simp [coveredIdxs, Call.idxs]
  · intro ents
    rw [h]
    simp

theorem c1_dispatch_amended_witness :
    ([⟨"local", "model.layers.0"⟩, ⟨"A", "model.layers.1"⟩,
        ⟨"A", "model.layers.2"⟩] : List Block) ≠ []
  ∧ coveredIdxs (forwardCalls
      [⟨"local", "model.layers.0"⟩, ⟨"A", "model.layers.1"⟩,
        ⟨"A", "model.layers.2"⟩] 7 0) =
      List.range (schedEnd
        [⟨"local", "model.layers.0"⟩, ⟨"A", "model.layers.1"⟩,
          ⟨"A", "model.layers.2"⟩]) :=
  ⟨by simp,
    (c1_dispatch_amended
      [⟨"local", "model.layers.0"⟩, ⟨"A", "model.layers.1"⟩,
        ⟨"A", "model.layers.2"⟩] 7 (by simp)).1⟩

/-- C2 (counterexample): for the Forwarder list `[A, A]` (two consecutive
blocks served by the same remote node) the inner batch-collection loop
sweeps the final layer index 1 into the batch, so the final layer IS
processed by the traversal, refuting the claim that it never is. -/
theorem c2_counterexample :
    forwardCalls
        [⟨"A", "model.layers.0"⟩, ⟨"A", "model.layers.1"⟩] 3 0 =
      [Call.batch "A" [("model.layers.0", 3, 0), ("model.layers.1", 3, 1)]]
  ∧ (1 : Nat) ∈ coveredIdxs (forwardCalls
      [⟨"A", "model.layers.0"⟩, ⟨"A", "model.layers.1"⟩] 3 0) := by
  have h : forwardCalls
      [⟨"A", "model.layers.0"⟩, ⟨"A", "model.layers.1"⟩] 3 0 =
      [Call.batch "A" [("model.layers.0", 3, 0), ("model.layers.1", 3, 1)]] := by
    simp [forwardCalls, collectBatch]
  refine ⟨h, ?_⟩
  rw [h]
  simp [coveredIdxs, Call.idxs]

theorem finalLayer_mem_iff (blocks : List Block) (pos : Nat)
    (hne : blocks ≠ []) :
    (blocks.length - 1) ∈ coveredIdxs (forwardCalls blocks pos 0) ↔
      (2 ≤ blocks.length ∧ identAt blocks (blocks.length - 2) ≠ "local" ∧
        identAt blocks (blocks.length - 1) =
          identAt blocks (blocks.length - 2)) := by
  have hlen : 1 ≤ blocks.length := by
    cases blocks with
    | nil => exact absurd rfl hne
    | cons a l => simp
  rw [coveredIdxs_forwardCalls_zero blocks pos hne, List.mem_range]
  unfold schedEnd
  split
  · next hcond => simp only [iff_true_intro hcond, iff_true]; omega
  · next hcond =>
      constructor
      · intro hlt
        omega
      · intro hc
        exact absurd hc hcond

/-- C2 (amended): the outer loop bound `num_blocks - 1` stops the
traversal one block short, so the final layer index is covered iff the
final block extends its predecessor's non-local run — it is processed in
exactly that case, and skipped in every other (in particular whenever it
is local or its identity differs from its predecessor's). -/
theorem c2_final_layer_amended (blocks : List Block) (pos : Nat)
    (hne : blocks ≠ []) :
    (blocks.length - 1) ∈ coveredIdxs (forwardCalls blocks pos 0) ↔
      (2 ≤ blocks.length ∧ identAt blocks (blocks.length - 2) ≠ "local" ∧
        identAt blocks (blocks.length - 1) =
          identAt blocks (blocks.length - 2)) :=
  finalLayer_mem_iff blocks pos hne

theorem c2_final_layer_amended_witness :
    ([⟨"local", "model.layers.0"⟩, ⟨"local", "model.layers.1"⟩] :
        List Block) ≠ []
  ∧ ((1 : Nat) ∈ coveredIdxs (forwardCalls
        [⟨"local", "model.layers.0"⟩, ⟨"local", "model.layers.1"⟩] 0 0) ↔
      (2 ≤ 2 ∧
        identAt [⟨"local", "model.layers.0"⟩,
          ⟨"local", "model.layers.1"⟩] 0 ≠ "local" ∧
        identAt [⟨"local", "model.layers.0"⟩,
          ⟨"local", "model.layers.1"⟩] 1 =
          identAt [⟨"local", "model.layers.0"⟩,
            ⟨"local", "model.layers.1"⟩] 0)) :=
  ⟨by simp,
    c2_final_layer_amended
      [⟨"local", "model.layers.0"⟩, ⟨"local", "model.layers.1"⟩] 0 (by simp)⟩

/-- C8: for `n ≥ 2` blocks the traversal forwards the final block
(index `n-1`) iff block `n-2` has a non-local identity equal to block
`n-1`'s (the inner batch loop runs to `n` though the outer loop stops at
`n-1`); with `n = 1` no block is forwarded at all. -/
theorem c8_final_block_iff (blocks : List Block) (pos : Nat) :
    (2 ≤ blocks.length →
      ((blocks.length - 1) ∈ coveredIdxs (forwardCalls blocks pos 0) ↔
        (identAt blocks (blocks.length - 2) ≠ "local" ∧
          identAt blocks (blocks.length - 1) =
            identAt blocks (blocks.length - 2))))
  ∧ (blocks.length = 1 → forwardCalls blocks pos 0 = []) := by
  constructor
  · intro h2
    have hne : blocks ≠ [] := by
      intro hnil
      rw [hnil] at h2
      simp at h2
    rw [finalLayer_mem_iff blocks pos hne]
    constructor
    · intro hc
      exact ⟨hc.2.1, hc.2.2⟩
    · intro hc
      exact ⟨h2, hc.1, hc.2⟩
  · intro h1
    exact forwardCalls_nil blocks pos (by omega)

theorem c8_final_block_iff_witness :
    ((1 : Nat) ∈ coveredIdxs (forwardCalls
        [⟨"A", "model.layers.0"⟩, ⟨"A", "model.layers.1"⟩] 0 0) ↔
      (identAt [⟨"A", "model.layers.0"⟩, ⟨"A", "model.layers.1"⟩] 0 ≠
          "local" ∧
        identAt [⟨"A", "model.layers.0"⟩, ⟨"A", "model.layers.1"⟩] 1 =
          identAt [⟨"A", "model.layers.0"⟩, ⟨"A", "model.layers.1"⟩] 0)) :=
  (c8_final_block_iff
      [⟨"A", "model.layers.0"⟩, ⟨"A", "model.layers.1"⟩] 0).1 (by simp)

/-! ## Cache claims: the causal mask and the kv window -/

/-- `Cache::new(use_kv_cache, dtype, config, device)` restricted to the
claim-relevant state: empty mask table and one empty kv slot per hidden
layer (`kvs: vec![None; config.num_hidden_layers]`). -/
def Cache.new (use_kv_cache : Bool) (num_hidden_layers : Nat) : Cache :=
  { masks := [], use_kv_cache := use_kv_cache,
    kvs := List.replicate num_hidden_layers none }

/-- Well-formedness of the memoized mask table: every stored mask is the
one `Cache::mask` builds for its key.  Holds for a fresh cache and is
preserved by `Cache::mask` itself. -/
def Cache.masksWF (c : Cache) : Prop :=
  ∀ p ∈ c.masks, p.2 = maskData p.1

theorem lookupMask_wf {masks : List (Nat × List Nat)} {n : Nat}
    {m : List Nat} (hwf : ∀ p ∈ masks, p.2 = maskData p.1)
    (hl : lookupMask masks n = some m) : m = maskData n := by
  induction masks with
  | nil => exact absurd hl (by simp [lookupMask])
  | cons p rest ih =>
      rw [lookupMask] at hl
      by_cases hp : p.1 = n
      · rw [if_pos hp] at hl
        cases hl
        rw [hwf p (by simp), hp]
      · rw [if_neg hp] at hl
        exact ih (fun q hq => hwf q (by simp [hq])) hl

theorem flatMap_range'_map_getD (g : Nat → Nat → Nat) (n : Nat) :
    ∀ i a m j, i < m → j < n →
      ((List.range' a m).flatMap
        (fun x => (List.range n).map (g x))).getD (i * n + j) 0 =
      g (a + i) j := by
  intro i
  induction i with
  | zero =>
      intro a m j him hjn
      cases m with
      | zero => omega
      | succ m' =>
          rw [List.range'_succ, List.flatMap_cons]
          have hlen : j < (List.map (g a) (List.range n)).length := by
            rw [List.length_map, List.length_range]
            exact hjn
          rw [Nat.zero_mul, Nat.zero_add, List.getD_append _ _ _ _ hlen]
          rw [List.getD_eq_getElem _ _ hlen, List.getElem_map,
            List.getElem_range]
          rw [Nat.add_zero]
  | succ i ih =>
      intro a m j him hjn
      cases m with
      | zero => omega
      | succ m' =>
          rw [List.range'_succ, List.flatMap_cons]
          have hlen : (List.map (g a) (List.range n)).length = n := by
            rw [List.length_map, List.length_range]
          rw [List.getD_append_right _ _ _ _ (by rw [hlen]; nlinarith)]
          rw [hlen, show (i + 1) * n + j - n = i * n + j by ring_nf; omega]
          rw [ih (a + 1) m' j (by omega) hjn]
          congr 1
          omega

theorem maskData_getD (n i j : Nat) (hi : i < n) (hj : j < n) :
    (maskData n).getD (i * n + j) 0 = if j > i then 1 else 0 := by
  have h := flatMap_range'_map_getD (fun i j => if j > i then 1 else 0) n
    i 0 n j hi hj
  rw [Nat.zero_add] at h
  rw [maskData]
  nth_rewrite 1 [List.range_eq_range']
  exact h

theorem mask_hit {c : Cache} {n : Nat} {m : List Nat}
    (hl : lookupMask c.masks n = some m) : c.mask n = (m, c) := by
  rw [Cache.mask, hl]

theorem mask_miss {c : Cache} {n : Nat}
    (hl : lookupMask c.masks n = none) :
    c.mask n = (maskData n, { c with masks := (n, maskData n) :: c.masks }) := by
  rw [Cache.mask, hl]

/-- C6: for a well-formed cache, `Cache::mask(n)` returns the `n×n` mask
whose flat entry at `(i, j)` is nonzero exactly when `j > i`
(strictly-upper-triangular); a second call with the same `n` on the
updated cache returns the structurally identical mask (memoization); and
on a fresh cache `mask(3)` is exactly the 3×3 matrix that is 1 where
column > row. -/
theorem c6_causal_mask (c : Cache) (n : Nat) (hwf : Cache.masksWF c) :
    (c.mask n).1 = maskData n
  ∧ (∀ i j, i < n → j < n →
      ((c.mask n).1.getD (i * n + j) 0 ≠ 0 ↔ j > i))
  ∧ ((c.mask n).2.mask n).1 = (c.mask n).1
  ∧ (Cache.mask (Cache.new true 32) 3).1 =
      [0, 1, 1, 0, 0, 1, 0, 0, 0] := by
  have hval : (c.mask n).1 = maskData n := by
    cases hl : lookupMask c.masks n with
    | none => rw [mask_miss hl]
    | some m =>
        rw [mask_hit hl]
        exact lookupMask_wf hwf hl
  refine ⟨hval, ?_, ?_, by rfl⟩
  · intro i j hi hj
    rw [hval, maskData_getD n i j hi hj]
    by_cases hji : j > i
    · rw [if_pos hji]
      simp [hji]
    · rw [if_neg hji]
      simp [hji]
  · cases hl : lookupMask c.masks n with
    | some m => simp [mask_hit hl]
    | none =>
        rw [mask_miss hl]
        have hl2 : lookupMask
            ({ c with masks := (n, maskData n) :: c.masks } : Cache).masks n =
            some (maskData n) := by
          rw [show ({ c with masks := (n, maskData n) :: c.masks } :
              Cache).masks = (n, maskData n) :: c.masks from rfl]
          rw [lookupMask, if_pos rfl]
        rw [show ((maskData n,
            { c with masks := (n, maskData n) :: c.masks }) :
              List Nat × Cache).2 =
            { c with masks := (n, maskData n) :: c.masks } from rfl]
        rw [mask_hit hl2]

theorem c6_causal_mask_witness :
    Cache.masksWF (Cache.new true 32)
  ∧ (Cache.mask (Cache.new true 32) 3).1 = maskData 3 :=
  ⟨by intro p hp; simp [Cache.new] at hp,
    (c6_causal_mask (Cache.new true 32) 3
      (by intro p hp; simp [Cache.new] at hp)).1⟩

/-- C10: with kv-caching disabled, `process_kv` returns its key and value
inputs unchanged for every block index and leaves the whole cache state
(per-layer kv slots and memoized masks alike) untouched. -/
theorem c10_no_kv_cache_frame (W : Nat) (c : Cache) (block_idx : Nat)
    (k v : Dims) (hoff : c.use_kv_cache = false) :
    Cache.process_kv W c block_idx k v = some ((k, v), c) := by
  rw [Cache.process_kv, if_neg]
  rw [hoff]
  simp

theorem c10_no_kv_cache_frame_witness :
    (Cache.new false 2).use_kv_cache = false
  ∧ Cache.process_kv 4 (Cache.new false 2) 1 [1, 1, 3, 4] [1, 1, 3, 4] =
      some (([1, 1, 3, 4], [1, 1, 3, 4]), Cache.new false 2) :=
  ⟨rfl, c10_no_kv_cache_frame 4 (Cache.new false 2) 1 _ _ rfl⟩

/-- Repeated `process_kv` calls on block 0 with a fixed input shape:
one call per decode step on the same layer. -/
def iterProcess (W : Nat) (k v : Dims) (c : Cache) : Nat → Option Cache
  | 0 => some c
  | n + 1 =>
      match Cache.process_kv W c 0 k v with
      | none => none
      | some r => iterProcess W k v r.2 n

/-- C3 (code bug): five single-token `process_kv` calls on one layer with
4-D `(batch, heads, seq, head_dim) = (1, 1, 1, 4)` inputs and window
`W = 4` leave a stored key whose sequence-axis length (`dims[2]`) is 5,
exceeding the window: the clamp compares `dims()[1]` (the kv-heads axis)
against `W` and narrows the last axis, so the sequence axis is never
truncated. -/
theorem c3_kv_window_exceeded :
    iterProcess 4 [1, 1, 1, 4] [1, 1, 1, 4] (Cache.new true 1) 5 =
      some { masks := [], use_kv_cache := true,
             kvs := [some ([1, 1, 5, 4], [1, 1, 5, 4])] }
  ∧ ([1, 1, 5, 4] : Dims).getD 2 0 > 4 :=
  ⟨rfl, by decide⟩

/-- C4 (counterexample): with window `W = 2` and a cached entry of
sequence-axis length 2, appending one more position yields a concatenated
key of sequence-axis length 3 > W that is stored *unclamped* — refuting
the claim that the key tensor is clamped when its length along the
sequence axis exceeds `W`. -/
theorem c4_counterexample :
    Cache.process_kv 2
        { masks := [], use_kv_cache := true,
          kvs := [some ([1, 1, 2, 4], [1, 1, 2, 4])] } 0
        [1, 1, 1, 4] [1, 1, 1, 4] =
      some (([1, 1, 3, 4], [1, 1, 3, 4]),
        { masks := [], use_kv_cache := true,
          kvs := [some ([1, 1, 3, 4], [1, 1, 3, 4])] })
  ∧ ([1, 1, 3, 4] : Dims).getD 2 0 > 2 :=
  ⟨rfl, by decide⟩

/-- C4 (amended): when a prior entry exists, both tensors are
concatenated along the sequence axis (axis 2), but the clamp thresholds
`W` (key) and `2W` (value) are compared against `dims()[1]` — the
kv-heads axis of the 4-D tensors, not the sequence axis — and on
overflow the *last* axis (head dim) is narrowed to `W`; the sequence
axis itself is never clamped. -/
theorem c4_clamp_amended (W b h s0 d s : Nat) (c : Cache) (idx : Nat)
    (hon : c.use_kv_cache = true)
    (hslot : c.kvs.get? idx = some (some ([b, h, s0, d], [b, h, s0, d])))
    (hhd : h ≤ d) :
    Cache.process_kv W c idx [b, h, s, d] [b, h, s, d] =
      some (([b, h, s0 + s, if h > W then W else d],
             [b, h, s0 + s, if h > 2 * W then W else d]),
        { c with
          kvs := c.kvs.set idx (some
            ([b, h, s0 + s, if h > W then W else d],
             [b, h, s0 + s, if h > 2 * W then W else d])) }) := by
  have hcat : catAt 2 [b, h, s0, d] [b, h, s, d] =
      some [b, h, s0 + s, d] := by
    rw [catAt, if_pos]
    · rfl
    · exact ⟨rfl, by simp, rfl⟩
  have hnarrow : ∀ x y, W < h →
      narrowLast (h - W) W [x, h, y, d] = some [x, h, y, W] := by
    intro x y hW
    rw [narrowLast]
    show (if h - W + W ≤ d then
        some (([x, h, y, d] : Dims).dropLast ++ [W]) else none) =
      some [x, h, y, W]
    rw [if_pos (by omega)]
    rfl
  have hget : ([b, h, s0 + s, d] : Dims).get? 1 = some h := rfl
  rw [Cache.process_kv, if_pos hon, hslot]
  simp only [hcat, Option.bind_eq_bind, Option.some_bind, hget]
  by_cases hk : h > W
  · rw [if_pos hk, hnarrow b (s0 + s) hk]
    simp only [Option.some_bind, hget]
    by_cases hv : h > 2 * W
    · rw [if_pos hv]
      rw [if_pos hk, if_pos hv]
    · rw [if_neg hv]
      rw [if_pos hk, if_neg hv]
  · rw [if_neg hk]
    by_cases hv : h > 2 * W
    · rw [if_pos hv, hnarrow b (s0 + s) (by omega)]
      simp only [Option.some_bind]
      rw [if_neg hk, if_pos hv]
    · rw [if_neg hv]
      rw [if_neg hk, if_neg hv]

theorem c4_clamp_amended_witness :
    ({ masks := [], use_kv_cache := true,
        kvs := [some ([1, 5, 2, 8], [1, 5, 2, 8])] } : Cache).use_kv_cache =
      true
  ∧ Cache.process_kv 2
      { masks := [], use_kv_cache := true,
        kvs := [some ([1, 5, 2, 8], [1, 5, 2, 8])] } 0
      [1, 5, 1, 8] [1, 5, 1, 8] =
    some (([1, 5, 3, if 5 > 2 then 2 else 8],
           [1, 5, 3, if 5 > 2 * 2 then 2 else 8]),
      { masks := [], use_kv_cache := true,
        kvs := [some ([1, 5, 3, if 5 > 2 then 2 else 8],
                      [1, 5, 3, if 5 > 2 * 2 then 2 else 8])] }) :=
  ⟨rfl, c4_clamp_amended 2 1 5 2 8 1
    { masks := [], use_kv_cache := true,
      kvs := [some ([1, 5, 2, 8], [1, 5, 2, 8])] } 0 rfl rfl (by omega)⟩

/-! ## The generation loop (`Master::generate`, `master.rs` lines 90-107)

The active loop is `let mut index = 0; loop { ... }`: it calls
`next_token(index)`, breaks iff the returned token has
`is_end_of_stream`, otherwise streams it and increments `index`.
`ctx.args.sample_len` is not consulted anywhere in the loop (the bounded
`for index in 0..sample_len` version is commented out in the source).
Tokens are abstracted by an oracle `tok : Nat → Token` giving the token
each successful `next_token(index)` call returns; `fuel` bounds how many
iterations we observe, since the loop itself has no bound. -/

structure Token where
  id : Nat
  is_end_of_stream : Bool
  deriving Repr, DecidableEq

/-- The generation loop body, observed for `fuel` iterations starting at
`index`: returns the streamed tokens in order, and `true` iff the loop
reached its terminal `break` within `fuel` iterations. -/
def genLoop (tok : Nat → Token) : Nat → Nat → List Token × Bool
  | 0, _ => ([], false)
  | fuel + 1, index =>
      let t := tok index
      if t.is_end_of_stream then ([], true)
      else
        let r := genLoop tok fuel (index + 1)
        (t :: r.1, r.2)

/-- `Master::generate`: the unbounded token loop.  `sample_len` is
`ctx.args.sample_len`, which the loop never reads — it appears here only
because the claim speaks about it. -/
def Master.generate (sample_len : Nat) (tok : Nat → Token) (fuel : Nat) :
    List Token × Bool :=
  genLoop tok fuel 0

/-- The number of steps until the first end-of-stream token among the
`fuel` observed iterations starting at `index` (`fuel` when none). -/
def eosOffset (tok : Nat → Token) (fuel index : Nat) : Nat :=
  List.findIdx (fun n => (tok n).is_end_of_stream) (List.range' index fuel)

theorem genLoop_eq (tok : Nat → Token) :
    ∀ fuel index, genLoop tok fuel index =
      ((List.range' index (eosOffset tok fuel index)).map tok,
        decide (eosOffset tok fuel index < fuel)) := by
  intro fuel
  induction fuel with
  | zero =>
      intro index
      rw [genLoop, eosOffset]
      rfl
  | succ fuel ih =>
      intro index
      cases hE : (tok index).is_end_of_stream with
      | true =>
          have hoff : eosOffset tok (fuel + 1) index = 0 := by
            rw [eosOffset, List.range'_succ, List.findIdx_cons, hE]
            rfl
          rw [genLoop, hE, if_pos rfl, hoff,
            decide_eq_true (Nat.succ_pos fuel)]
          rfl
      | false =>
          have hoff : eosOffset tok (fuel + 1) index =
              eosOffset tok fuel (index + 1) + 1 := by
            rw [eosOffset, List.range'_succ, List.findIdx_cons, hE]
            rfl
          rw [genLoop, hE, if_neg (by simp), ih (index + 1), hoff,
            List.range'_succ, List.map_cons]
          rw [show decide (eosOffset tok fuel (index + 1) + 1 < fuel + 1) =
              decide (eosOffset tok fuel (index + 1) < fuel) by
            by_cases hlt : eosOffset tok fuel (index + 1) < fuel
            · rw [decide_eq_true
                (by omega : eosOffset tok fuel (index + 1) + 1 < fuel + 1),
                decide_eq_true hlt]
            · rw [decide_eq_false (by omega), decide_eq_false hlt]]

/-- C5 (counterexample): with a sample-length cap of 1 and a token oracle
that never signals end-of-stream, three observed iterations of the
generation loop stream three tokens and the loop has not terminated —
refuting the claim that generation stops at (and never exceeds) the
`sample_len` cap. -/
theorem c5_counterexample :
    (Master.generate 1 (fun i => { id := i, is_end_of_stream := false })
        3).1.length = 3
  ∧ (Master.generate 1 (fun i => { id := i, is_end_of_stream := false })
        3).2 = false
  ∧ 3 > 1 :=
  ⟨rfl, rfl, by omega⟩

/-- C5 (amended): one dialog turn's generation loop reaches its terminal
state exactly when the sampled token signals end-of-stream (i.e. equals
the configured end-of-sequence id, which is how `next_token` sets
`is_end_of_stream`); the tokens streamed are precisely those sampled
before the first such token.  The sample-length cap is never consulted:
the result is independent of `sample_len`, so the loop can produce more
tokens than the cap. -/
theorem c5_generation_terminal_amended (sample_len : Nat)
    (tok : Nat → Token) (fuel : Nat) :
    Master.generate sample_len tok fuel =
      ((List.range' 0 (eosOffset tok fuel 0)).map tok,
        decide (eosOffset tok fuel 0 < fuel))
  ∧ Master.generate sample_len tok fuel = Master.generate 0 tok fuel :=
  ⟨genLoop_eq tok fuel 0, rfl⟩

/-! ## The decode step (`LLama::next_token`, `llama.rs` lines 293-357)

State: the token buffer, the absolute position cursor `index_pos`, and
the generated-token counter (`self.tokens`, `self.index_pos`,
`self.generated`).  Oracles: `prompt` is the tokenized dialog rendered by
`start_dialog_prompt` (tokenizer is an external collaborator); `fwd` is
`self.forward(input, context_index)` returning abstract logits or an
error; `pen` is the repeat-penalty block (identity when
`repeat_penalty == 1`, `apply_repeat_penalty` otherwise — both covered
by an opaque fallible transform); `sample` is
`logits_processor.sample(logits)`.  The cache (cleared in
`start_dialog_prompt`, mutated inside `forward`) is modelled separately
by `Cache` above and is not part of this state. -/

structure GenState where
  tokens : List Nat
  index_pos : Nat
  generated : Nat
  deriving Repr, DecidableEq

/-- `LLama::next_token(index)`: returns the produced token (or the
propagated error) together with the post-call session state, mutations
applied exactly where the source applies them — `index_pos` is advanced
only after `forward` and the penalty succeed, the buffer and counter
only after sampling succeeds. -/
def nextToken (withKv : Bool) (prompt : List Nat)
    (fwd : List Nat → Nat → Except String Nat)
    (pen : Nat → Except String Nat)
    (sample : Nat → Except String Nat)
    (eosId : Option Nat) (s : GenState) (index : Nat) :
    Except String Token × GenState :=
  let s1 := if s.generated = 0 then
      { tokens := prompt, index_pos := 0, generated := s.generated } else s
  let num_tokens := s1.tokens.length
  let p := if withKv ∧ 0 < index then (1, s1.index_pos) else (num_tokens, 0)
  let context_tokens := s1.tokens.drop (num_tokens - p.1)
  let num_context_tokens := context_tokens.length
  match fwd context_tokens p.2 with
  | .error e => (.error ("error in model.forward: " ++ e), s1)
  | .ok logits =>
    match pen logits with
    | .error e => (.error e, s1)
    | .ok logits2 =>
      let s2 := { s1 with index_pos := s1.index_pos + num_context_tokens }
      match sample logits2 with
      | .error e => (.error ("error sampling logits: " ++ e), s2)
      | .ok t =>
        (.ok { id := t, is_end_of_stream := some t == eosId },
          { s2 with generated := s2.generated + 1,
                    tokens := s2.tokens ++ [t] })

/-- C9: on any step after the first (`generated > 0`), a failing forward
pass makes `next_token` propagate the error and leave the session state
— token buffer, position cursor, generated counter — exactly as it was:
all three mutations happen after the `forward` call in the source. -/
theorem c9_forward_error_frame (withKv : Bool) (prompt : List Nat)
    (fwd : List Nat → Nat → Except String Nat)
    (pen : Nat → Except String Nat) (sample : Nat → Except String Nat)
    (eosId : Option Nat) (s : GenState) (index : Nat) (e : String)
    (hgen : ¬ s.generated = 0)
    (hf : fwd (s.tokens.drop (s.tokens.length -
        (if withKv = true ∧ 0 < index then (1, s.index_pos)
          else (s.tokens.length, 0)).1))
        ((if withKv = true ∧ 0 < index then (1, s.index_pos)
          else (s.tokens.length, 0)).2) = .error e) :
    nextToken withKv prompt fwd pen sample eosId s index =
      (.error ("error in model.forward: " ++ e), s) := by
  simp only [nextToken, if_neg hgen, hf]

theorem c9_forward_error_frame_witness :
    ¬ (⟨[7], 3, 2⟩ : GenState).generated = 0
  ∧ nextToken true [] (fun _ _ => .error "boom") (fun l => .ok l)
      (fun _ => .ok 0) none ⟨[7], 3, 2⟩ 1 =
    (.error ("error in model.forward: " ++ "boom"), ⟨[7], 3, 2⟩) :=
  ⟨by decide,
    c9_forward_error_frame true [] (fun _ _ => .error "boom")
      (fun l => .ok l) (fun _ => .ok 0) none ⟨[7], 3, 2⟩ 1 "boom"
      (by decide) rfl⟩

/-- C7: across every successful `next_token` call the position cursor
advances by exactly the number of newly consumed tokens: it never
decreases within a warmed turn; during incremental decode (kv cache
enabled, step index > 0, after the first step) it advances by exactly 1;
and on the first step of a turn (fresh counter, step index 0 or cache
disabled) it ends at exactly the full prompt length, having been reset
to 0 by `start_dialog_prompt`. -/
theorem c7_index_pos_increment (withKv : Bool) (prompt : List Nat)
    (fwd : List Nat → Nat → Except String Nat)
    (pen : Nat → Except String Nat) (sample : Nat → Except String Nat)
    (eosId : Option Nat) (s : GenState) (index : Nat) (t : Token)
    (s2 : GenState)
    (hrun : nextToken withKv prompt fwd pen sample eosId s index =
      (.ok t, s2)) :
    (¬ s.generated = 0 → s.index_pos ≤ s2.index_pos)
  ∧ (¬ s.generated = 0 → withKv = true → 0 < index → s.tokens ≠ [] →
      s2.index_pos = s.index_pos + 1)
  ∧ (s.generated = 0 → (index = 0 ∨ withKv = false) →
      s2.index_pos = prompt.length) := by
  have key : s2.index_pos =
      (if s.generated = 0 then 0 else s.index_pos) +
      ((if s.generated = 0 then prompt else s.tokens).drop
        ((if s.generated = 0 then prompt else s.tokens).length -
          (if withKv = true ∧ 0 < index then 1
            else (if s.generated = 0 then prompt
              else s.tokens).length))).length := by
    rw [nextToken] at hrun
    by_cases hg : s.generated = 0
    · by_cases hc : withKv = true ∧ 0 < index
      · simp only [if_pos hg, if_pos hc] at hrun ⊢
        repeat' split at hrun
        all_goals simp only [Prod.mk.injEq] at hrun
        all_goals try exact absurd hrun.1 (fun hcon => Except.noConfusion hcon)
        all_goals rw [← hrun.2]
      · simp only [if_pos hg, if_neg hc] at hrun ⊢
        repeat' split at hrun
        all_goals simp only [Prod.mk.injEq] at hrun
        all_goals try exact absurd hrun.1 (fun hcon => Except.noConfusion hcon)
        all_goals rw [← hrun.2]
    · by_cases hc : withKv = true ∧ 0 < index
      · simp only [if_neg hg, if_pos hc] at hrun ⊢
        repeat' split at hrun
        all_goals simp only [Prod.mk.injEq] at hrun
        all_goals try exact absurd hrun.1 (fun hcon => Except.noConfusion hcon)
        all_goals rw [← hrun.2]
      · simp only [if_neg hg, if_neg hc] at hrun ⊢
        repeat' split at hrun
        all_goals simp only [Prod.mk.injEq] at hrun
        all_goals try exact absurd hrun.1 (fun hcon => Except.noConfusion hcon)
        all_goals rw [← hrun.2]
  refine ⟨?_, ?_, ?_⟩
  · intro hg
    rw [key, if_neg hg]
    omega
  · intro hg hkv hidx hne
    have hlen : 0 < s.tokens.length := List.length_pos.mpr hne
    rw [key, if_neg hg, if_neg hg, if_pos (And.intro hkv hidx),
      List.length_drop]
    omega
  · intro hg hcase
    have hc : ¬ (withKv = true ∧ 0 < index) := by
      rcases hcase with h0 | hkv
      · rw [h0]
        simp
      · rw [hkv]
        simp
    rw [key, if_pos hg, if_pos hg, if_neg hc, List.length_drop]
    omega

theorem c7_index_pos_increment_witness :
    (¬ (⟨[7], 3, 2⟩ : GenState).generated = 0 → (3 : Nat) ≤ 4)
  ∧ (¬ (⟨[7], 3, 2⟩ : GenState).generated = 0 → true = true → 0 < 1 →
      (⟨[7], 3, 2⟩ : GenState).tokens ≠ [] → (4 : Nat) = 3 + 1)
  ∧ ((⟨[7], 3, 2⟩ : GenState).generated = 0 → (1 = 0 ∨ true = false) →
      (4 : Nat) = [5, 6].length) :=
  c7_index_pos_increment true [5, 6] (fun _ _ => .ok 0) (fun l => .ok l)
    (fun _ => .ok 9) none ⟨[7], 3, 2⟩ 1 ⟨9, false⟩ ⟨[7, 9], 4, 3⟩ rfl

end Spm
